import Mathlib

/-!
# Flowers image classification demo: `main.c`

A shallow embedding of the pipeline logic of `src/main.c`:

* `capture_process_camera` (row-by-row capture, pixel packing, overflow halt),
* `cnn_load_input` (the accelerator feed) and the part of the `main` cycle that
  sequences capture and feed,
* the decode loop of `main` (percent formatting, winner selection, summary line,
  LED indication),
* `asciiart` (the text rendering of the captured frame).

Machine integers are natural numbers or integers; a store into a `uint8_t` or
`uint32_t` object is an explicit `% 256` or `% 2 ^ 32`.  The sensor driver, whose
code is not part of the file, is a record of what its calls answer.
-/

namespace Flowers

/-! ## Constants of `main.c` -/

/-- Image width, `#define IMAGE_SIZE_X (128)`. -/
def IMAGE_SIZE_X : Nat := 128

/-- Image height, `#define IMAGE_SIZE_Y (128)`. -/
def IMAGE_SIZE_Y : Nat := 128

/-- Downscaling ratio of the text rendering, `#define RATIO 2`. -/
def RATIO : Nat := 2

/-- The glyph palette, `char *brightness = "@%#*+=-:. "`. -/
def brightness : List Char := "@%#*+=-:. ".toList

/-! ## Pixel packing (`capture_process_camera`, lines 143-152) -/

/-- The word stored for one pixel:
`((b << 16) | (g << 8) | r) ^ 0x00808080`, stored into a `uint32_t`. -/
def packWord (r g b : Nat) : Nat :=
  (((b <<< 16) ||| (g <<< 8) ||| r) ^^^ 0x00808080) % 2 ^ 32

/-- Byte `i` of a 32-bit word (byte 0 is the least significant one). -/
def byteOf (word i : Nat) : Nat := (word >>> (8 * i)) % 256

/-- The value of a byte read as a signed 8-bit integer (two's complement). -/
def toInt8 (x : Nat) : Int :=
  if x % 256 < 128 then ((x % 256 : Nat) : Int) else ((x % 256 : Nat) : Int) - 256

/-! ## The sensor driver as seen by `capture_process_camera` -/

/-- One answer of the driver to the polling loop of lines 137-141.
`handle data`: `get_camera_stream_buffer()` returned a row buffer holding the
bytes `data`.  `empty rcv`: it returned `NULL`, and the call of
`camera_is_image_rcv()` that follows returned `rcv`. -/
inductive Poll where
  | handle (data : List Nat)
  | empty (rcv : Bool)

/-- What the driver does during one capture: the geometry reported by
`camera_get_image`, the successive answers to the polling loop (when the list is
used up the driver answers `NULL` and "not received" for ever), the overflow
counter of `get_camera_stream_statistic`, and `lowMem k`, the byte the processor
finds at address `k` when it reads through a `NULL` row pointer. -/
structure Camera where
  w : Nat
  h : Nat
  polls : List Poll
  overflow_count : Nat
  lowMem : Nat → Nat

/-- The variables `capture_process_camera` writes: the frame buffer `input_0`,
the running index `cnt`, and (bookkeeping of the embedding) the number of bytes
read through a `NULL` row pointer. -/
structure Capture where
  input_0 : List Nat
  cnt : Nat
  nullReads : Nat

/-- The load `data[k]` into a `uint8_t`; `data` is `none` for a `NULL` pointer. -/
def loadByte (lowMem : Nat → Nat) (data : Option (List Nat)) (k : Nat) : Nat :=
  match data with
  | some buf => buf.getD k 0 % 256
  | none => lowMem k % 256

/-- The body of the loop of lines 143-152 for one `k`: load `r`, `g`, `b` and
store the packed word at `input_0[cnt++]`. -/
def storePixel (lowMem : Nat → Nat) (data : Option (List Nat)) (k : Nat)
    (st : Capture) : Capture :=
  let r := loadByte lowMem data k
  let g := loadByte lowMem data (k + 1)
  let b := loadByte lowMem data (k + 2)
  { input_0 := st.input_0.set st.cnt (packWord r g b)
    cnt := st.cnt + 1
    nullReads := st.nullReads + (if data.isNone then 3 else 0) }

/-- The loop `for (k = 0; k < 4 * w; k += 4)`; the first argument counts the
iterations that are left (`w` at the start, as `k` advances by 4 up to `4 * w`;
the product `4 * w` is taken not to wrap, as for every width up to `2 ^ 30`). -/
def copyRow (lowMem : Nat → Nat) (data : Option (List Nat)) :
    Nat → Nat → Capture → Capture
  | 0, _, st => st
  | n + 1, k, st => copyRow lowMem data n (k + 4) (storePixel lowMem data k st)

/-- The polling loop of lines 137-141: the value left in `data` and the answers
not yet consumed, or `none` when the loop never ends. -/
def pollRow : List Poll → Option (Option (List Nat) × List Poll)
  | [] => none
  | Poll.handle d :: rest => some (some d, rest)
  | Poll.empty true :: rest => some (none, rest)
  | Poll.empty false :: rest => pollRow rest

/-- The loop `for (row = 0; row < h; row++)` of lines 135-156; the first argument
counts the rows that are left.  `none`: a polling loop never ends. -/
def captureRows (lowMem : Nat → Nat) (w : Nat) :
    Nat → List Poll → Capture → Option Capture
  | 0, _, st => some st
  | n + 1, polls, st =>
    match pollRow polls with
    | none => none
    | some (data, rest) => captureRows lowMem w n rest (copyRow lowMem data w 0 st)

/-- How a call of `capture_process_camera` ends. -/
inductive Outcome where
  | returned (st : Capture)
  | halted (st : Capture)
  | polling

/-- The function `capture_process_camera` on the frame buffer `input_0`:
the row loop, then the overflow check of lines 158-164, whose
`while (1) {}` never returns. -/
def capture_process_camera (cam : Camera) (input_0 : List Nat) : Outcome :=
  match captureRows cam.lowMem cam.w cam.h cam.polls
      { input_0 := input_0, cnt := 0, nullReads := 0 } with
  | none => Outcome.polling
  | some st => if cam.overflow_count > 0 then Outcome.halted st else Outcome.returned st

/-- The words `cnn_load_input` writes to the accelerator FIFO, in order:
`input_0[0]` to `input_0[16383]` (each write waits for the FIFO first). -/
def cnn_load_input (input_0 : List Nat) : List Nat :=
  (List.range 16384).map (fun i => input_0.getD i 0)

/-- What one cycle of `main` (lines 241-246) has done up to the feed. -/
structure Cycle where
  capture : Outcome
  feedReached : Bool
  fifo : List Nat

/-- Lines 241-246 of `main`: `capture_process_camera()`, then, once it has
returned, `cnn_start()` and `cnn_load_input()`. -/
def cycle (cam : Camera) (input_0 : List Nat) : Cycle :=
  match capture_process_camera cam input_0 with
  | Outcome.returned st =>
    { capture := Outcome.returned st, feedReached := true, fifo := cnn_load_input st.input_0 }
  | o => { capture := o, feedReached := false, fifo := [] }

/-! ## The decode loop of `main` (lines 263-297) -/

/-- Line 266: `(1000 * ml_softmax[i] + 0x4000) >> 15`. -/
def percentTenths (p : Int) : Int := (1000 * p + 0x4000) >>> (15 : Nat)

/-- The variables of the decode loop. -/
structure Decode where
  digs : Int
  tens : Int
  result : List Int
  max_class : Nat

/-- The body of the loop of lines 265-276 for class `i`. -/
def decodeStep (ml_data ml_softmax : List Int) (i : Nat) (st : Decode) : Decode :=
  let digs := percentTenths (ml_softmax.getD i 0)
  let tens := Int.tmod digs 10
  let digs := Int.tdiv digs 10
  { digs := digs
    tens := tens
    result := st.result.set i digs
    max_class := if ml_data.getD i 0 > ml_data.getD st.max_class 0 then i else st.max_class }

/-- The loop `for (i = 0; i < CNN_NUM_OUTPUTS; i++)`; the first argument counts
the iterations that are left. -/
def decodeLoop (ml_data ml_softmax : List Int) : Nat → Nat → Decode → Decode
  | 0, _, st => st
  | n + 1, i, st => decodeLoop ml_data ml_softmax n (i + 1) (decodeStep ml_data ml_softmax i st)

/-- Lines 264-276 with `N = CNN_NUM_OUTPUTS` (a constant of `cnn.h`, taken as a
parameter): `max_class = 0`, then the loop. -/
def decode (N : Nat) (ml_data ml_softmax : List Int) : Decode :=
  decodeLoop ml_data ml_softmax N 0
    { digs := 0, tens := 0, result := List.replicate N 0, max_class := 0 }

/-- The three values the summary line of lines 280-281 prints: the winner index
(printed as its label), `result[max_class]` and `tens`. -/
def summaryLine (N : Nat) (ml_data ml_softmax : List Int) : Nat × Int × Int :=
  let st := decode N ml_data ml_softmax
  (st.max_class, st.result.getD st.max_class 0, st.tens)

/-- The state of the two indicator LEDs. -/
structure Leds where
  led1 : Bool
  led2 : Bool
deriving DecidableEq

/-- Lines 285-297: the LED indication for `result[max_class] = p`. -/
def ledIndication (p : Int) : Leds :=
  if p > 80 then { led1 := true, led2 := false }
  else if p > 50 then { led1 := true, led2 := true }
  else { led1 := false, led2 := true }

/-- High confidence (line 286): LED1 on, LED2 off. -/
def tierHigh : Leds := { led1 := true, led2 := false }

/-- Medium confidence (line 290): both LEDs on. -/
def tierMedium : Leds := { led1 := true, led2 := true }

/-- Low confidence (line 294): LED1 off, LED2 on. -/
def tierLow : Leds := { led1 := false, led2 := true }

/-! ## `asciiart` (lines 56-93) -/

/-- The bytes of the frame buffer as `asciiart((uint8_t *)input_0)` sees them
(the target is little-endian). -/
def frameBytes (input_0 : List Nat) : List Nat :=
  input_0.flatMap (fun x => [byteOf x 0, byteOf x 1, byteOf x 2, byteOf x 3])

/-- Lines 71-77: the luminance `Y` of the pixel whose bytes start at `p`. -/
def luminance (img : List Nat) (p : Nat) : Nat :=
  let r := (img.getD p 0 ^^^ 0x80) % 256
  let g := (img.getD (p + 1) 0 ^^^ 0x80) % 256
  let b := (img.getD (p + 2) 0 ^^^ 0x80) % 256
  ((3 * r + b + 4 * g) >>> 3) % 256

/-- Line 80: `brightness[l - (Y * l / 255)]` with `l = strlen(brightness) - 1`. -/
def glyphOf (Y : Nat) : Char :=
  let l := brightness.length - 1
  brightness.getD (l - Y * l / 255) (Char.ofNat 0)

/-- The glyph of the pixel whose bytes start at `p`. -/
def glyphAt (img : List Nat) (p : Nat) : Char := glyphOf (luminance img p)

/-- The variables of `asciiart`: the read position, the two skip counters and
the characters printed so far. -/
structure Ascii where
  srcPtr : Nat
  skip_x : Nat
  skip_y : Nat
  out : List Char

/-- The body of the inner loop (lines 70-84) for one pixel. -/
def asciiPixel (img : List Nat) (st : Ascii) : Ascii :=
  let out :=
    if st.skip_x = RATIO ∧ st.skip_y = RATIO then st.out ++ [glyphAt img st.srcPtr]
    else st.out
  let skip_x := st.skip_x + 1
  { srcPtr := st.srcPtr + 4
    skip_x := if skip_x > RATIO then 1 else skip_x
    skip_y := st.skip_y
    out := out }

/-- The loop `for (j = 0; j < IMAGE_SIZE_X; j++)`; the first argument counts the
iterations that are left. -/
def asciiCols (img : List Nat) : Nat → Ascii → Ascii
  | 0, st => st
  | n + 1, st => asciiCols img n (asciiPixel img st)

/-- Lines 86-90, the end of one image row. -/
def asciiRowEnd (st : Ascii) : Ascii :=
  let skip_y := st.skip_y + 1
  if skip_y > RATIO then { st with skip_y := 1, out := st.out ++ ['\n'] }
  else { st with skip_y := skip_y }

/-- The loop `for (i = 0; i < IMAGE_SIZE_Y; i++)`; the first argument counts the
iterations that are left. -/
def asciiRows (img : List Nat) : Nat → Ascii → Ascii
  | 0, st => st
  | n + 1, st => asciiRows img n (asciiRowEnd (asciiCols img IMAGE_SIZE_X st))

/-- The header banner of line 66. -/
def asciiHeader : List Char := "\n=== ASCII Art Representation ===\n".toList

/-- The footer banner of line 92. -/
def asciiFooter : List Char := "================================\n\n".toList

/-- The characters `asciiart(img)` prints. -/
def asciiart (img : List Nat) : List Char :=
  (asciiRows img IMAGE_SIZE_Y
    { srcPtr := 0, skip_x := RATIO, skip_y := RATIO, out := asciiHeader }).out ++ asciiFooter

/-! ## Specification-side definitions -/

/-- The row buffers a list of driver answers hands over, in order. -/
def handles : List Poll → List (List Nat)
  | [] => []
  | Poll.handle d :: rest => d :: handles rest
  | Poll.empty _ :: rest => handles rest

/-- No answer reports end-of-frame together with a `NULL` row pointer. -/
def noEarlyEnd : List Poll → Bool
  | [] => true
  | Poll.handle _ :: rest => noEarlyEnd rest
  | Poll.empty true :: _ => false
  | Poll.empty false :: rest => noEarlyEnd rest

/-- A well-formed capture: the driver hands over exactly the row buffers `rows`,
one per image row, each holding `w` four-byte pixels, never reports end-of-frame
in place of a row, and counts no overflow. -/
def WellFormed (cam : Camera) (rows : List (List Nat)) : Prop :=
  handles cam.polls = rows ∧ noEarlyEnd cam.polls = true ∧ rows.length = cam.h ∧
    (∀ d ∈ rows, d.length = 4 * cam.w) ∧ cam.overflow_count = 0

/-- The glyph block of the text rendering: line `a`, column `b` shows the pixel
of image row `2 * a`, column `2 * b`; every line ends with a newline. -/
def glyphBlock (img : List Nat) : List Char :=
  (List.range 64).flatMap (fun a =>
    (List.range 64).map (fun b => glyphAt img (4 * ((2 * a) * 128 + 2 * b))) ++ ['\n'])


/-- The state after the rows `rows` have been handed over and copied, one after
the other. -/
def deliverRows (lowMem : Nat → Nat) (w : Nat) (rows : List (List Nat)) (st : Capture) :
    Capture :=
  rows.foldl (fun s d => copyRow lowMem (some d) w 0 s) st

/-! ## Concrete captures -/

/-- One row buffer of 128 pixels, every byte 7. -/
def sampleRow : List Nat := List.replicate 512 7

/-- A 128x128 capture in which every row is handed over (the first poll finds no
buffer yet) and no overflow is counted. -/
def frameCamera : Camera :=
  { w := 128
    h := 128
    polls := Poll.empty false :: List.replicate 128 (Poll.handle sampleRow)
    overflow_count := 0
    lowMem := fun _ => 255 }

/-- The same capture with three overflows counted by the driver. -/
def overflowCamera : Camera :=
  { w := 128
    h := 128
    polls := Poll.empty false :: List.replicate 128 (Poll.handle sampleRow)
    overflow_count := 3
    lowMem := fun _ => 255 }

/-- A 128x128 capture in which 127 rows are handed over and the poll for the last
row finds no buffer while the driver reports the image as received. -/
def eofCamera : Camera :=
  { w := 128
    h := 128
    polls := List.map Poll.handle (List.replicate 127 sampleRow) ++ [Poll.empty true]
    overflow_count := 0
    lowMem := fun _ => 255 }

/-- A frame buffer of 128 * 128 words, all zero. -/
def blankFrame : List Nat := List.replicate 16384 0

/-- The frame buffer after the capture of an all-white image: every word is the
packed pixel `r = g = b = 255`. -/
def whiteFrame : List Nat := List.replicate 16384 (packWord 255 255 255)

/-- The frame buffer after the capture of an all-black image: every word is the
packed pixel `r = g = b = 0`. -/
def blackFrame : List Nat := List.replicate 16384 (packWord 0 0 0)

/-! ## Pixel packing -/

set_option maxRecDepth 100000 in
theorem xor_high_bit : ∀ r, r < 256 →
    r ^^^ 0x80 < 256 ∧ toInt8 (r ^^^ 0x80) = (r : Int) - 128 ∧ (r ^^^ 0x80) ^^^ 0x80 = r := by
  decide

theorem xor_split (i a a' b b' : Nat) (hb : b < 2 ^ i) (hb' : b' < 2 ^ i) :
    (2 ^ i * a + b) ^^^ (2 ^ i * a' + b') = 2 ^ i * (a ^^^ a') + (b ^^^ b') := by
  have hx : b ^^^ b' < 2 ^ i := Nat.xor_lt_two_pow hb hb'
  apply Nat.eq_of_testBit_eq
  intro j
  rw [Nat.testBit_xor, Nat.testBit_mul_pow_two_add _ hb, Nat.testBit_mul_pow_two_add _ hb',
    Nat.testBit_mul_pow_two_add _ hx]
  split <;> simp [Nat.testBit_xor]

theorem or_split (i a a' b b' : Nat) (hb : b < 2 ^ i) (hb' : b' < 2 ^ i) :
    (2 ^ i * a + b) ||| (2 ^ i * a' + b') = 2 ^ i * (a ||| a') + (b ||| b') := by
  have hx : b ||| b' < 2 ^ i := Nat.or_lt_two_pow hb hb'
  apply Nat.eq_of_testBit_eq
  intro j
  rw [Nat.testBit_or, Nat.testBit_mul_pow_two_add _ hb, Nat.testBit_mul_pow_two_add _ hb',
    Nat.testBit_mul_pow_two_add _ hx]
  split <;> simp [Nat.testBit_or]

theorem pack_or (r g b : Nat) (hr : r < 256) (hg : g < 256) :
    (b <<< 16) ||| (g <<< 8) ||| r = 2 ^ 8 * (2 ^ 8 * b + g) + r := by
  have h1 : (b <<< 16) ||| (g <<< 8) = 2 ^ 8 * (2 ^ 8 * b + g) + 0 := by
    have := or_split 16 b 0 0 (2 ^ 8 * g) (by norm_num) (by omega)
    simp only [Nat.shiftLeft_eq]
    simp only [Nat.add_zero, Nat.mul_zero, Nat.zero_add, Nat.or_zero, Nat.zero_or] at this
    rw [show b * 2 ^ 16 = 2 ^ 16 * b by ring, show g * 2 ^ 8 = 2 ^ 8 * g by ring, this]
    ring
  rw [h1]
  have := or_split 8 (2 ^ 8 * b + g) 0 0 r (by norm_num) (by omega)
  simpa using this

theorem packWord_eq (r g b : Nat) (hr : r < 256) (hg : g < 256) (hb : b < 256) :
    packWord r g b = 2 ^ 8 * (2 ^ 8 * (b ^^^ 0x80) + (g ^^^ 0x80)) + (r ^^^ 0x80) := by
  have xr := (xor_high_bit r hr).1
  have xg := (xor_high_bit g hg).1
  have xb := (xor_high_bit b hb).1
  unfold packWord
  rw [pack_or r g b hr hg]
  have e : (0x00808080 : Nat) = 2 ^ 8 * (2 ^ 8 * 0x80 + 0x80) + 0x80 := by norm_num
  rw [e, xor_split 8 _ _ _ _ (by omega) (by norm_num),
    xor_split 8 _ _ _ _ (by omega) (by norm_num)]
  omega

theorem packWord_bytes (r g b : Nat) (hr : r < 256) (hg : g < 256) (hb : b < 256) :
    byteOf (packWord r g b) 0 = r ^^^ 0x80 ∧ byteOf (packWord r g b) 1 = g ^^^ 0x80 ∧
    byteOf (packWord r g b) 2 = b ^^^ 0x80 ∧ byteOf (packWord r g b) 3 = 0 := by
  have xr := (xor_high_bit r hr).1
  have xg := (xor_high_bit g hg).1
  have xb := (xor_high_bit b hb).1
  rw [packWord_eq r g b hr hg hb]
  unfold byteOf
  simp only [Nat.shiftRight_eq_div_pow]
  refine ⟨?_, ?_, ?_, ?_⟩ <;> omega

/-- C1: for channels `r`, `g`, `b` in 0..255 the stored word
`((b << 16) | (g << 8) | r) ^ 0x00808080` is below `2 ^ 24` (its top byte is zero),
its bytes 0, 1, 2 are `r xor 0x80`, `g xor 0x80`, `b xor 0x80`, and each of them,
read as a signed 8-bit value, is the channel value minus 128. -/
theorem packWord_sign_centered (r g b : Nat) (hr : r < 256) (hg : g < 256) (hb : b < 256) :
    packWord r g b < 2 ^ 24 ∧ byteOf (packWord r g b) 3 = 0 ∧
    byteOf (packWord r g b) 0 = r ^^^ 0x80 ∧
    byteOf (packWord r g b) 1 = g ^^^ 0x80 ∧
    byteOf (packWord r g b) 2 = b ^^^ 0x80 ∧
    toInt8 (byteOf (packWord r g b) 0) = (r : Int) - 128 ∧
    toInt8 (byteOf (packWord r g b) 1) = (g : Int) - 128 ∧
    toInt8 (byteOf (packWord r g b) 2) = (b : Int) - 128 := by
  have xr := xor_high_bit r hr
  have xg := xor_high_bit g hg
  have xb := xor_high_bit b hb
  obtain ⟨b0, b1, b2, b3⟩ := packWord_bytes r g b hr hg hb
  refine ⟨?_, b3, b0, b1, b2, ?_, ?_, ?_⟩
  · rw [packWord_eq r g b hr hg hb]; omega
  · rw [b0]; exact xr.2.1
  · rw [b1]; exact xg.2.1
  · rw [b2]; exact xb.2.1

/-- Witness of C1 at the pixel `(r, g, b) = (255, 0, 128)`. -/
theorem packWord_sign_centered_witness :
    packWord 255 0 128 < 2 ^ 24 ∧ byteOf (packWord 255 0 128) 3 = 0 ∧
    byteOf (packWord 255 0 128) 0 = 255 ^^^ 0x80 ∧
    byteOf (packWord 255 0 128) 1 = 0 ^^^ 0x80 ∧
    byteOf (packWord 255 0 128) 2 = 128 ^^^ 0x80 ∧
    toInt8 (byteOf (packWord 255 0 128) 0) = ((255 : Nat) : Int) - 128 ∧
    toInt8 (byteOf (packWord 255 0 128) 1) = ((0 : Nat) : Int) - 128 ∧
    toInt8 (byteOf (packWord 255 0 128) 2) = ((128 : Nat) : Int) - 128 :=
  packWord_sign_centered 255 0 128 (by decide) (by decide) (by decide)

/-! ## Percent formatting -/

theorem percentTenths_eq_div (p : Int) : percentTenths p = (1000 * p + 16384) / 32768 := by
  unfold percentTenths
  rw [Int.shiftRight_eq_div_pow]
  norm_num

/-- C4: for a q15 probability `p` in 0..32767 the value `(1000 * p + 0x4000) >> 15`
(whose sum fits an `int`) is `1000 * p / 32768` rounded half up, that is
`floor (1000 * p / 32768 + 1 / 2)`, and lies in 0..1000; `p = 16384` gives 500
tenths, shown as whole 50 and digit 0, and `p = 32767` gives 1000 tenths, shown as
whole 100 and digit 0. -/
theorem percentTenths_round_half_up (p : Int) (h0 : 0 ≤ p) (h1 : p ≤ 32767) :
    percentTenths p = ⌊(1000 * (p : ℚ)) / 32768 + 1 / 2⌋ ∧
    1000 * p + 0x4000 < 2 ^ 31 ∧ 0 ≤ percentTenths p ∧ percentTenths p ≤ 1000 ∧
    percentTenths 16384 = 500 ∧ Int.tdiv (percentTenths 16384) 10 = 50 ∧
    Int.tmod (percentTenths 16384) 10 = 0 ∧
    percentTenths 32767 = 1000 ∧ Int.tdiv (percentTenths 32767) 10 = 100 ∧
    Int.tmod (percentTenths 32767) 10 = 0 := by
  refine ⟨?_, by omega, ?_, ?_, by decide, by decide, by decide, by decide, by decide,
    by decide⟩
  · rw [percentTenths_eq_div]
    have e : (1000 * (p : ℚ)) / 32768 + 1 / 2
        = (((1000 * p + 16384 : Int) : ℚ)) / ((32768 : Nat) : ℚ) := by
      push_cast
      ring
    rw [e, Rat.floor_intCast_div_natCast]
    norm_num
  · rw [percentTenths_eq_div]; omega
  · rw [percentTenths_eq_div]; omega

/-- Witness of C4 at `p = 12345`. -/
theorem percentTenths_round_half_up_witness :
    percentTenths 12345 = ⌊(1000 * ((12345 : Int) : ℚ)) / 32768 + 1 / 2⌋ ∧
    1000 * (12345 : Int) + 0x4000 < 2 ^ 31 ∧ 0 ≤ percentTenths 12345 ∧
    percentTenths 12345 ≤ 1000 ∧
    percentTenths 16384 = 500 ∧ Int.tdiv (percentTenths 16384) 10 = 50 ∧
    Int.tmod (percentTenths 16384) 10 = 0 ∧
    percentTenths 32767 = 1000 ∧ Int.tdiv (percentTenths 32767) 10 = 100 ∧
    Int.tmod (percentTenths 32767) 10 = 0 :=
  percentTenths_round_half_up 12345 (by decide) (by decide)

/-! ## Winner selection -/

theorem decodeLoop_max_class (ml_data ml_softmax : List Int) :
    ∀ (n i : Nat) (st : Decode),
      (st.max_class = 0 ∨ st.max_class < i) →
      (∀ j, j < i → ml_data.getD j 0 ≤ ml_data.getD st.max_class 0) →
      (∀ j, j < st.max_class → ml_data.getD j 0 < ml_data.getD st.max_class 0) →
      ((decodeLoop ml_data ml_softmax n i st).max_class = 0 ∨
        (decodeLoop ml_data ml_softmax n i st).max_class < i + n) ∧
      (∀ j, j < i + n → ml_data.getD j 0 ≤
        ml_data.getD (decodeLoop ml_data ml_softmax n i st).max_class 0) ∧
      (∀ j, j < (decodeLoop ml_data ml_softmax n i st).max_class → ml_data.getD j 0 <
        ml_data.getD (decodeLoop ml_data ml_softmax n i st).max_class 0) := by
  intro n
  induction n with
  | zero =>
    intro i st h1 h2 h3
    exact ⟨by simpa [decodeLoop] using h1, by simpa [decodeLoop] using h2,
      by simpa [decodeLoop] using h3⟩
  | succ n ih =>
    intro i st h1 h2 h3
    have key := ih (i + 1) (decodeStep ml_data ml_softmax i st)
    have e : i + 1 + n = i + (n + 1) := by omega
    rw [e] at key
    simp only [decodeLoop]
    apply key
    · simp only [decodeStep]
      split
      · right; omega
      · rcases h1 with h | h
        · left; exact h
        · right; omega
    · intro j hj
      simp only [decodeStep]
      split
      · rename_i hgt
        rcases Nat.lt_succ_iff_lt_or_eq.mp hj with h | h
        · exact le_of_lt (lt_of_le_of_lt (h2 j h) hgt)
        · rw [h]
      · rename_i hgt
        rcases Nat.lt_succ_iff_lt_or_eq.mp hj with h | h
        · exact h2 j h
        · rw [h]; exact not_lt.mp hgt
    · intro j
      simp only [decodeStep]
      split
      · rename_i hgt
        intro hj
        exact lt_of_le_of_lt (h2 j hj) hgt
      · intro hj
        exact h3 j hj

/-- C3: for a raw score buffer of `N = CNN_NUM_OUTPUTS` scores (`N` positive), the
winner index the decode loop computes is the least index of a maximum: it is an
index of the buffer, no score exceeds the winner's, and every score before the
winner is strictly smaller; `raw = [10,10,5,0,0]` gives winner 0. -/
theorem winner_least_argmax (N : Nat) (ml_data ml_softmax : List Int)
    (hlen : ml_data.length = N) (hN : 0 < N) :
    (decode N ml_data ml_softmax).max_class < ml_data.length ∧
    (∀ j, j < ml_data.length → ml_data.getD j 0 ≤
      ml_data.getD (decode N ml_data ml_softmax).max_class 0) ∧
    (∀ j, j < (decode N ml_data ml_softmax).max_class → ml_data.getD j 0 <
      ml_data.getD (decode N ml_data ml_softmax).max_class 0) ∧
    (decode 5 [10, 10, 5, 0, 0] ml_softmax).max_class = 0 := by
  have key := decodeLoop_max_class ml_data ml_softmax N 0
    { digs := 0, tens := 0, result := List.replicate N 0, max_class := 0 }
    (Or.inl rfl) (by intro j hj; omega) (by intro j hj; simp at hj)
  simp only [Nat.zero_add] at key
  rw [hlen]
  refine ⟨?_, key.2.1, key.2.2, ?_⟩
  · rcases key.1 with h | h
    · unfold decode; omega
    · exact h
  · simp [decode, decodeLoop, decodeStep]

/-- Witness of C3 at the buffer `[3, 9, 9, 1, 0]`, whose winner is index 1. -/
theorem winner_least_argmax_witness :
    (decode 5 [3, 9, 9, 1, 0] [0, 0, 0, 0, 0]).max_class < [3, 9, 9, 1, (0 : Int)].length ∧
    (∀ j, j < [3, 9, 9, 1, (0 : Int)].length → [3, 9, 9, 1, (0 : Int)].getD j 0 ≤
      [3, 9, 9, 1, (0 : Int)].getD (decode 5 [3, 9, 9, 1, 0] [0, 0, 0, 0, 0]).max_class 0) ∧
    (∀ j, j < (decode 5 [3, 9, 9, 1, 0] [0, 0, 0, 0, 0]).max_class →
      [3, 9, 9, 1, (0 : Int)].getD j 0 <
      [3, 9, 9, 1, (0 : Int)].getD (decode 5 [3, 9, 9, 1, 0] [0, 0, 0, 0, 0]).max_class 0) ∧
    (decode 5 [10, 10, 5, 0, 0] [0, 0, 0, 0, 0]).max_class = 0 :=
  winner_least_argmax 5 [3, 9, 9, 1, 0] [0, 0, 0, 0, 0] (by decide) (by decide)

/-! ## Confidence tiers -/

/-- C7: the LED indication selects exactly one of three tiers from the winner's
whole-percent value `p`: high iff `p > 80`, medium iff `50 < p ≤ 80`, low iff
`p ≤ 50`; 81 is high, 80 and 51 are medium, 50 is low. -/
theorem ledIndication_tiers (p : Int) :
    (ledIndication p = tierHigh ↔ p > 80) ∧
    (ledIndication p = tierMedium ↔ (50 < p ∧ p ≤ 80)) ∧
    (ledIndication p = tierLow ↔ p ≤ 50) ∧
    tierHigh ≠ tierMedium ∧ tierHigh ≠ tierLow ∧ tierMedium ≠ tierLow ∧
    ledIndication 81 = tierHigh ∧ ledIndication 80 = tierMedium ∧
    ledIndication 51 = tierMedium ∧ ledIndication 50 = tierLow := by
  refine ⟨?_, ?_, ?_, by decide, by decide, by decide, by decide, by decide, by decide,
    by decide⟩
  · unfold ledIndication tierHigh
    split_ifs with h1 h2 <;> simp <;> omega
  · unfold ledIndication tierMedium
    split_ifs with h1 h2 <;> simp <;> omega
  · unfold ledIndication tierLow
    split_ifs with h1 h2 <;> simp <;> omega

/-! ## Frame acquisition -/

theorem getD_set_eq (l : List Nat) (i j v : Nat) :
    (l.set i v).getD j 0 = if i = j ∧ i < l.length then v else l.getD j 0 := by
  simp only [List.getD_eq_getElem?_getD, List.getElem?_set]
  by_cases hij : i = j
  · by_cases hl : i < l.length
    · subst hij
      simp [hl]
    · subst hij
      have : l[i]? = none := List.getElem?_eq_none (by omega)
      simp [hl, this]
  · simp [hij]

theorem copyRow_spec (lowMem : Nat → Nat) (data : Option (List Nat)) :
    ∀ (n k : Nat) (st : Capture),
      (copyRow lowMem data n k st).cnt = st.cnt + n ∧
      (copyRow lowMem data n k st).input_0.length = st.input_0.length ∧
      (copyRow lowMem data n k st).nullReads
        = st.nullReads + (if data.isNone then 3 * n else 0) ∧
      (∀ idx, idx < st.cnt →
        (copyRow lowMem data n k st).input_0.getD idx 0 = st.input_0.getD idx 0) ∧
      (∀ c, c < n → st.cnt + c < st.input_0.length →
        (copyRow lowMem data n k st).input_0.getD (st.cnt + c) 0
          = packWord (loadByte lowMem data (k + 4 * c)) (loadByte lowMem data (k + 4 * c + 1))
              (loadByte lowMem data (k + 4 * c + 2))) := by
  intro n
  induction n with
  | zero =>
    intro k st
    simp [copyRow]
  | succ n ih =>
    intro k st
    obtain ⟨h1, h2, h3, h4, h5⟩ := ih (k + 4) (storePixel lowMem data k st)
    simp only [copyRow]
    have hc : (storePixel lowMem data k st).cnt = st.cnt + 1 := rfl
    have hl : (storePixel lowMem data k st).input_0.length = st.input_0.length := by
      simp [storePixel]
    refine ⟨by rw [h1, hc]; omega, by rw [h2, hl], ?_, ?_, ?_⟩
    · rw [h3]
      simp only [storePixel]
      split <;> omega
    · intro idx hidx
      rw [h4 idx (by rw [hc]; omega)]
      simp only [storePixel, getD_set_eq]
      rw [if_neg (by omega)]
    · intro c hcn hlen
      cases c with
      | zero =>
        simp only [Nat.add_zero, Nat.mul_zero] at hlen ⊢
        rw [h4 st.cnt (by rw [hc]; omega)]
        simp only [storePixel, getD_set_eq]
        rw [if_pos ⟨trivial, hlen⟩]
      | succ c =>
        have := h5 c (by omega) (by rw [hc, hl]; omega)
        rw [hc] at this
        rw [show st.cnt + (c + 1) = st.cnt + 1 + c by omega, this]
        rw [show k + 4 + 4 * c = k + 4 * (c + 1) by omega]

theorem deliverRows_spec (lowMem : Nat → Nat) (w : Nat) :
    ∀ (rows : List (List Nat)) (st : Capture),
      (deliverRows lowMem w rows st).cnt = st.cnt + rows.length * w ∧
      (deliverRows lowMem w rows st).input_0.length = st.input_0.length ∧
      (deliverRows lowMem w rows st).nullReads = st.nullReads ∧
      (∀ idx, idx < st.cnt →
        (deliverRows lowMem w rows st).input_0.getD idx 0 = st.input_0.getD idx 0) ∧
      (∀ row col, row < rows.length → col < w →
        st.cnt + row * w + col < st.input_0.length →
        (deliverRows lowMem w rows st).input_0.getD (st.cnt + row * w + col) 0
          = packWord ((rows.getD row []).getD (4 * col) 0 % 256)
              ((rows.getD row []).getD (4 * col + 1) 0 % 256)
              ((rows.getD row []).getD (4 * col + 2) 0 % 256)) := by
  intro rows
  induction rows with
  | nil =>
    intro st
    simp [deliverRows]
  | cons d ds ih =>
    intro st
    obtain ⟨c1, c2, c3, c4, c5⟩ := copyRow_spec lowMem (some d) w 0 st
    obtain ⟨h1, h2, h3, h4, h5⟩ := ih (copyRow lowMem (some d) w 0 st)
    have e : deliverRows lowMem w (d :: ds) st
        = deliverRows lowMem w ds (copyRow lowMem (some d) w 0 st) := rfl
    rw [e]
    refine ⟨?_, by rw [h2, c2], ?_, ?_, ?_⟩
    · rw [h1, c1, List.length_cons, Nat.succ_mul]; omega
    · rw [h3, c3]; simp
    · intro idx hidx
      rw [h4 idx (by rw [c1]; omega), c4 idx hidx]
    · intro row col hrow hcol hlen
      cases row with
      | zero =>
        rw [Nat.zero_mul, Nat.add_zero, h4 _ (by rw [c1]; omega), c5 col hcol (by omega)]
        simp [loadByte]
      | succ row =>
        have hrow2 : row < ds.length := by simpa using hrow
        rw [Nat.succ_mul] at hlen ⊢
        have := h5 row col hrow2 hcol (by rw [c1, c2]; omega)
        rw [c1] at this
        rw [show st.cnt + (row * w + w) + col = st.cnt + w + row * w + col by omega, this]
        simp

theorem pollRow_handle (polls : List Poll) :
    ∀ (d : List Nat) (ds : List (List Nat)), handles polls = d :: ds →
      noEarlyEnd polls = true →
      ∃ rest, pollRow polls = some (some d, rest) ∧ handles rest = ds ∧
        noEarlyEnd rest = true := by
  induction polls with
  | nil => intro d ds h; simp [handles] at h
  | cons a rest ih =>
    intro d ds h hn
    cases a with
    | handle d2 =>
      simp only [handles, List.cons.injEq] at h
      simp only [noEarlyEnd] at hn
      exact ⟨rest, by simp [pollRow, h.1], h.2, hn⟩
    | empty rcv =>
      cases rcv with
      | true => simp [noEarlyEnd] at hn
      | false =>
        simp only [handles] at h
        simp only [noEarlyEnd] at hn
        obtain ⟨r, h1, h2, h3⟩ := ih d ds h hn
        exact ⟨r, by simpa [pollRow] using h1, h2, h3⟩

theorem captureRows_delivered (lowMem : Nat → Nat) (w : Nat) :
    ∀ (rows : List (List Nat)) (polls : List Poll) (st : Capture),
      handles polls = rows → noEarlyEnd polls = true →
      captureRows lowMem w rows.length polls st = some (deliverRows lowMem w rows st) := by
  intro rows
  induction rows with
  | nil => intro polls st _ _; rfl
  | cons d ds ih =>
    intro polls st h hn
    obtain ⟨rest, h1, h2, h3⟩ := pollRow_handle polls d ds h hn
    simp only [List.length_cons, captureRows, h1]
    exact ih rest _ h2 h3

theorem offset_lt (w h row col : Nat) (hrow : row < h) (hcol : col < w) :
    row * w + col < w * h := by
  have h1 : row * w + col < (row + 1) * w := by rw [Nat.succ_mul]; omega
  have h2 : (row + 1) * w ≤ h * w := Nat.mul_le_mul_right w hrow
  rw [Nat.mul_comm w h]
  omega

/-- C2: for a well-formed capture (the driver hands over `h` rows of `w` four-byte
pixels, no overflow) with `w * h` equal to the size of the frame buffer,
`capture_process_camera` returns with exactly `w * h` words written
(`cnt = w * h`, the length of the buffer), and the word at offset `row * w + col`
is the packing formula applied to bytes `4 * col`, `4 * col + 1`, `4 * col + 2` of
row `row`. -/
theorem capture_well_formed (cam : Camera) (rows : List (List Nat)) (input_0 : List Nat)
    (hwf : WellFormed cam rows)
    (hsize : cam.w * cam.h = IMAGE_SIZE_X * IMAGE_SIZE_Y)
    (hbuf : input_0.length = IMAGE_SIZE_X * IMAGE_SIZE_Y) :
    ∃ st, capture_process_camera cam input_0 = Outcome.returned st ∧
      st.cnt = cam.w * cam.h ∧ st.input_0.length = cam.w * cam.h ∧ st.nullReads = 0 ∧
      ∀ row col, row < cam.h → col < cam.w →
        st.input_0.getD (row * cam.w + col) 0
          = packWord ((rows.getD row []).getD (4 * col) 0 % 256)
              ((rows.getD row []).getD (4 * col + 1) 0 % 256)
              ((rows.getD row []).getD (4 * col + 2) 0 % 256) := by
  obtain ⟨hh, hn, hlen, _, hov⟩ := hwf
  have hrun := captureRows_delivered cam.lowMem cam.w rows cam.polls
    { input_0 := input_0, cnt := 0, nullReads := 0 } hh hn
  rw [hlen] at hrun
  obtain ⟨s1, s2, s3, _, s5⟩ := deliverRows_spec cam.lowMem cam.w rows
    { input_0 := input_0, cnt := 0, nullReads := 0 }
  refine ⟨deliverRows cam.lowMem cam.w rows { input_0 := input_0, cnt := 0, nullReads := 0 },
    ?_, ?_, ?_, ?_, ?_⟩
  · simp [capture_process_camera, hrun, hov]
  · rw [s1, hlen]; simp [Nat.mul_comm]
  · rw [s2]; simp [hbuf, hsize]
  · rw [s3]
  · intro row col hrow hcol
    have hlt := offset_lt cam.w cam.h row col hrow hcol
    have := s5 row col (by rw [hlen]; exact hrow) hcol (by simp; rw [hbuf, ← hsize]; exact hlt)
    simpa using this

theorem capture_returned_of_rows (cam : Camera) (input_0 : List Nat) (st : Capture)
    (hr : captureRows cam.lowMem cam.w cam.h cam.polls
      { input_0 := input_0, cnt := 0, nullReads := 0 } = some st)
    (hov : cam.overflow_count = 0) :
    capture_process_camera cam input_0 = Outcome.returned st := by
  simp [capture_process_camera, hr, hov]

/-- Witness of C2 at a 128x128 capture whose rows hold the byte 7 throughout. -/
theorem capture_well_formed_witness :
    WellFormed frameCamera (List.replicate 128 sampleRow) ∧
    ∃ st, capture_process_camera frameCamera blankFrame = Outcome.returned st ∧
      st.cnt = frameCamera.w * frameCamera.h ∧
      st.input_0.length = frameCamera.w * frameCamera.h ∧ st.nullReads = 0 ∧
      ∀ row col, row < frameCamera.h → col < frameCamera.w →
        st.input_0.getD (row * frameCamera.w + col) 0
          = packWord (((List.replicate 128 sampleRow).getD row []).getD (4 * col) 0 % 256)
              (((List.replicate 128 sampleRow).getD row []).getD (4 * col + 1) 0 % 256)
              (((List.replicate 128 sampleRow).getD row []).getD (4 * col + 2) 0 % 256) :=
  have hwf : WellFormed frameCamera (List.replicate 128 sampleRow) :=
    ⟨rfl, rfl, rfl, by
      intro d hd
      rw [List.eq_of_mem_replicate hd]
      exact List.length_replicate 512 7, rfl⟩
  ⟨hwf, capture_well_formed frameCamera (List.replicate 128 sampleRow) blankFrame hwf rfl
    (List.length_replicate _ _)⟩

/-! ## Overflow -/

/-- C8: when the driver's statistics report `overflow_count > 0`,
`capture_process_camera` never returns a frame (once the rows are read it stays in
the `while (1) {}` of line 163) and the cycle of `main` does not reach the feed:
no word is written to the accelerator FIFO.  When they report 0 and the row loop
has ended, the capture returns and the feed follows, writing the 16384 words of
the frame buffer. -/
theorem overflow_blocks_feed (cam : Camera) (input_0 : List Nat) :
    (cam.overflow_count > 0 →
      (∀ st, capture_process_camera cam input_0 ≠ Outcome.returned st) ∧
      (∀ st, captureRows cam.lowMem cam.w cam.h cam.polls
          { input_0 := input_0, cnt := 0, nullReads := 0 } = some st →
        capture_process_camera cam input_0 = Outcome.halted st) ∧
      (cycle cam input_0).feedReached = false ∧ (cycle cam input_0).fifo = []) ∧
    (cam.overflow_count = 0 →
      ∀ st, captureRows cam.lowMem cam.w cam.h cam.polls
          { input_0 := input_0, cnt := 0, nullReads := 0 } = some st →
        capture_process_camera cam input_0 = Outcome.returned st ∧
        (cycle cam input_0).feedReached = true ∧
        (cycle cam input_0).fifo = cnn_load_input st.input_0 ∧
        (cycle cam input_0).fifo.length = 16384) := by
  constructor
  · intro hov
    unfold cycle capture_process_camera
    cases hr : captureRows cam.lowMem cam.w cam.h cam.polls
        { input_0 := input_0, cnt := 0, nullReads := 0 } with
    | none => simp
    | some s => simp [hov]
  · intro hov st hr
    unfold cycle capture_process_camera
    simp [hr, hov, cnn_load_input]

/-- Witness of C8: the 128x128 capture with three overflows, and the same capture
without overflow. -/
theorem overflow_blocks_feed_witness :
    ((∀ st, capture_process_camera overflowCamera blankFrame ≠ Outcome.returned st) ∧
      (∀ st, captureRows overflowCamera.lowMem overflowCamera.w overflowCamera.h
          overflowCamera.polls { input_0 := blankFrame, cnt := 0, nullReads := 0 } = some st →
        capture_process_camera overflowCamera blankFrame = Outcome.halted st) ∧
      (cycle overflowCamera blankFrame).feedReached = false ∧
      (cycle overflowCamera blankFrame).fifo = []) ∧
    (capture_process_camera frameCamera blankFrame
        = Outcome.returned (deliverRows frameCamera.lowMem frameCamera.w
            (List.replicate 128 sampleRow) { input_0 := blankFrame, cnt := 0, nullReads := 0 }) ∧
      (cycle frameCamera blankFrame).feedReached = true ∧
      (cycle frameCamera blankFrame).fifo
        = cnn_load_input (deliverRows frameCamera.lowMem frameCamera.w
            (List.replicate 128 sampleRow)
            { input_0 := blankFrame, cnt := 0, nullReads := 0 }).input_0 ∧
      (cycle frameCamera blankFrame).fifo.length = 16384) :=
  ⟨(overflow_blocks_feed overflowCamera blankFrame).1 (by decide),
    (overflow_blocks_feed frameCamera blankFrame).2 rfl _
      (captureRows_delivered frameCamera.lowMem frameCamera.w (List.replicate 128 sampleRow)
        frameCamera.polls { input_0 := blankFrame, cnt := 0, nullReads := 0 } rfl rfl)⟩

/-! ## End-of-frame without a row buffer -/

theorem captureRows_handles_then (lowMem : Nat → Nat) (w : Nat) (post : List Poll) (m : Nat) :
    ∀ (rows : List (List Nat)) (st : Capture),
      captureRows lowMem w (rows.length + m) (List.map Poll.handle rows ++ post) st
        = captureRows lowMem w m post (deliverRows lowMem w rows st) := by
  intro rows
  induction rows with
  | nil => intro st; simp [deliverRows]
  | cons d ds ih =>
    intro st
    have e : (d :: ds).length + m = (ds.length + m) + 1 := by simp; omega
    rw [e]
    simp only [List.map_cons, List.cons_append, captureRows, pollRow]
    exact ih _

/-- C10, the code at a failing input: in the 128x128 capture whose last row
meets end-of-frame with no row buffer, `capture_process_camera` returns, but it
has performed the row copy all the same: 16384 words are stored, 384 bytes were
read through the `NULL` pointer, and the 128 words of the last row are packed
from the bytes found at address 0 onwards. -/
theorem capture_reads_absent_handle :
    ∃ st, capture_process_camera eofCamera blankFrame = Outcome.returned st ∧
      st.cnt = 16384 ∧ st.nullReads = 384 ∧
      ∀ col, col < 128 → st.input_0.getD (127 * 128 + col) 0 = packWord 255 255 255 := by
  have hrun : captureRows eofCamera.lowMem eofCamera.w eofCamera.h eofCamera.polls
      { input_0 := blankFrame, cnt := 0, nullReads := 0 }
      = some (copyRow eofCamera.lowMem none 128 0
          (deliverRows eofCamera.lowMem 128 (List.replicate 127 sampleRow)
            { input_0 := blankFrame, cnt := 0, nullReads := 0 })) :=
    captureRows_handles_then eofCamera.lowMem 128 [Poll.empty true] 1
      (List.replicate 127 sampleRow) { input_0 := blankFrame, cnt := 0, nullReads := 0 }
  have hret := capture_returned_of_rows eofCamera blankFrame _ hrun rfl
  obtain ⟨d1, d2, d3, _, _⟩ := deliverRows_spec eofCamera.lowMem 128
    (List.replicate 127 sampleRow) { input_0 := blankFrame, cnt := 0, nullReads := 0 }
  obtain ⟨c1, _, c3, _, c5⟩ := copyRow_spec eofCamera.lowMem none 128 0
    (deliverRows eofCamera.lowMem 128 (List.replicate 127 sampleRow)
      { input_0 := blankFrame, cnt := 0, nullReads := 0 })
  have hlen : blankFrame.length = 16384 := List.length_replicate _ _
  rw [List.length_replicate] at d1
  dsimp only at d1 d2 d3
  rw [Nat.zero_add] at d1
  rw [d1] at c1 c5
  rw [d2, hlen] at c5
  rw [d3] at c3
  refine ⟨_, hret, c1, c3, ?_⟩
  intro col hcol
  rw [c5 col hcol (by omega)]
  rfl

/-! ## The summary line -/

/-- C5, the code at a failing input: with scores whose winner is class 0 and
softmax values `[30000, 2000, 256, 256, 255]`, the winner's percent-in-tenths is
916 (91.6 %), but the summary line prints whole 91 with digit 8, the digit of the
last class (8 tenths, 0.8 %). -/
theorem summary_digit_of_last_class :
    summaryLine 5 [900, 100, 0, 0, 0] [30000, 2000, 256, 256, 255] = (0, 91, 8) ∧
    percentTenths 30000 = 916 ∧ Int.tdiv 916 10 = 91 ∧ Int.tmod 916 10 = 6 ∧
    percentTenths 255 = 8 ∧ Int.tmod 8 10 = 8 := by
  decide

/-! ## The text rendering -/

theorem map_range_succ {α : Type} (f : Nat → α) (m : Nat) :
    (List.range (m + 1)).map f = f 0 :: (List.range m).map (fun b => f (b + 1)) := by
  rw [List.range_succ_eq_map, List.map_cons, List.map_map]
  rfl

theorem flatMap_range_succ {α : Type} (f : Nat → List α) (m : Nat) :
    (List.range (m + 1)).flatMap f = f 0 ++ (List.range m).flatMap (fun b => f (b + 1)) := by
  rw [List.range_succ_eq_map, List.flatMap_cons, List.flatMap_map]

theorem asciiCols_pairs (img : List Nat) (s : Nat) :
    ∀ (m p : Nat) (out : List Char),
      asciiCols img (2 * m) { srcPtr := p, skip_x := 2, skip_y := s, out := out }
        = { srcPtr := p + 8 * m, skip_x := 2, skip_y := s,
            out := out ++ (if s = 2 then (List.range m).map (fun b => glyphAt img (p + 8 * b))
              else []) } := by
  intro m
  induction m with
  | zero => intro p out; simp [asciiCols]
  | succ m ih =>
    intro p out
    rw [show 2 * (m + 1) = (2 * m + 1) + 1 by omega]
    have e1 : asciiPixel img { srcPtr := p, skip_x := 2, skip_y := s, out := out }
        = { srcPtr := p + 4, skip_x := 1, skip_y := s,
            out := if s = 2 then out ++ [glyphAt img p] else out } := by
      simp [asciiPixel, RATIO]
    have e2 : ∀ o, asciiPixel img { srcPtr := p + 4, skip_x := 1, skip_y := s, out := o }
        = { srcPtr := p + 8, skip_x := 2, skip_y := s, out := o } := by
      intro o
      simp [asciiPixel, RATIO]
    have e3 : (fun b => glyphAt img (p + 8 + 8 * b))
        = (fun b => glyphAt img (p + 8 * (b + 1))) := by
      funext b
      congr 1
      omega
    simp only [asciiCols]
    rw [e1, e2, ih, show p + 8 + 8 * m = p + 8 * (m + 1) by omega, e3]
    congr 1
    by_cases hs : s = 2
    · rw [if_pos hs, if_pos hs, if_pos hs, map_range_succ]
      simp
    · rw [if_neg hs, if_neg hs, if_neg hs]

theorem asciiRows_pairs (img : List Nat) :
    ∀ (m p : Nat) (out : List Char),
      asciiRows img (2 * m) { srcPtr := p, skip_x := 2, skip_y := 2, out := out }
        = { srcPtr := p + 1024 * m, skip_x := 2, skip_y := 2,
            out := out ++ (List.range m).flatMap (fun a =>
              (List.range 64).map (fun b => glyphAt img (p + 1024 * a + 8 * b)) ++ ['\n']) } := by
  intro m
  induction m with
  | zero => intro p out; simp [asciiRows]
  | succ m ih =>
    intro p out
    rw [show 2 * (m + 1) = (2 * m + 1) + 1 by omega]
    have r1 : ∀ q o, asciiRowEnd { srcPtr := q, skip_x := 2, skip_y := 2, out := o }
        = { srcPtr := q, skip_x := 2, skip_y := 1, out := o ++ ['\n'] } := by
      intro q o
      simp [asciiRowEnd, RATIO]
    have r2 : ∀ q o, asciiRowEnd { srcPtr := q, skip_x := 2, skip_y := 1, out := o }
        = { srcPtr := q, skip_x := 2, skip_y := 2, out := o } := by
      intro q o
      simp [asciiRowEnd, RATIO]
    have e3 : (fun a => (List.range 64).map
          (fun b => glyphAt img (p + 8 * 64 + 8 * 64 + 1024 * a + 8 * b)) ++ ['\n'])
        = (fun a => (List.range 64).map (fun b => glyphAt img (p + 1024 * (a + 1) + 8 * b))
          ++ ['\n']) := by
      funext a
      congr 2
      funext b
      congr 1
      omega
    simp only [asciiRows]
    rw [show IMAGE_SIZE_X = 2 * 64 from rfl, asciiCols_pairs, r1, asciiCols_pairs, r2, ih,
      if_pos rfl, if_neg (by decide), e3, flatMap_range_succ]
    congr 1
    · omega
    · simp

theorem length_flatMap_const {α : Type} (f : Nat → List α) (c : Nat)
    (hf : ∀ a, (f a).length = c) :
    ∀ l : List Nat, (l.flatMap f).length = l.length * c := by
  intro l
  induction l with
  | nil => simp
  | cons a l ih =>
    rw [List.flatMap_cons, List.length_append, ih, hf a, List.length_cons, Nat.succ_mul]
    omega

theorem glyphAt_mem (img : List Nat) (p : Nat) : glyphAt img p ∈ brightness := by
  have hall : ∀ idx, idx < 10 → brightness.getD idx (Char.ofNat 0) ∈ brightness := by decide
  have hl : brightness.length - 1 = 9 := by decide
  unfold glyphAt glyphOf
  simp only [hl]
  apply hall
  omega

/-- C9: for every image `asciiart` prints, between its header and footer banners,
exactly the glyph block of 64 lines, each of 64 glyphs followed by a newline,
where the glyph at line `a`, column `b` is that of the pixel at row `2 * a`, column
`2 * b` (byte offset `4 * (2 * a * 128 + 2 * b)`); no glyph is a newline, and the
block has 64 * 65 characters. -/
theorem asciiart_glyph_block (img : List Nat) :
    asciiart img = asciiHeader ++ glyphBlock img ++ asciiFooter ∧
    (∀ p, glyphAt img p ≠ '\n') ∧ (glyphBlock img).length = 64 * 65 := by
  refine ⟨?_, ?_, ?_⟩
  · unfold asciiart
    rw [show IMAGE_SIZE_Y = 2 * 64 from rfl, show RATIO = 2 from rfl, asciiRows_pairs]
    simp only [glyphBlock, Nat.zero_add]
    congr 3
    funext a
    congr 2
    funext b
    congr 1
    omega
  · intro p h
    have hm := glyphAt_mem img p
    rw [h] at hm
    revert hm
    decide
  · unfold glyphBlock
    rw [length_flatMap_const _ 65 (by intro a; simp), List.length_range]

/-! ## Glyph of a white and of a black pixel -/

theorem frameBytes_getD (l : List Nat) :
    ∀ i, i < l.length →
      (frameBytes l).getD (4 * i) 0 = byteOf (l.getD i 0) 0 ∧
      (frameBytes l).getD (4 * i + 1) 0 = byteOf (l.getD i 0) 1 ∧
      (frameBytes l).getD (4 * i + 2) 0 = byteOf (l.getD i 0) 2 := by
  induction l with
  | nil => intro i hi; simp at hi
  | cons x xs ih =>
    intro i hi
    have e : frameBytes (x :: xs)
        = byteOf x 0 :: byteOf x 1 :: byteOf x 2 :: byteOf x 3 :: frameBytes xs := rfl
    rw [e]
    cases i with
    | zero => simp
    | succ j =>
      have hj : j < xs.length := by simpa using hi
      obtain ⟨h0, h1, h2⟩ := ih j hj
      rw [show 4 * (j + 1) = 4 * j + 1 + 1 + 1 + 1 by omega,
        show 4 * j + 1 + 1 + 1 + 1 + 2 = 4 * j + 2 + 1 + 1 + 1 + 1 by omega]
      simp only [List.getD_cons_succ]
      exact ⟨h0, h1, h2⟩

theorem glyphAt_frameBytes (l : List Nat) (i : Nat) (hi : i < l.length) :
    glyphAt (frameBytes l) (4 * i) = glyphAt (frameBytes [l.getD i 0]) 0 := by
  obtain ⟨h0, h1, h2⟩ := frameBytes_getD l i hi
  obtain ⟨k0, k1, k2⟩ := frameBytes_getD [l.getD i 0] 0 (by simp)
  simp only [Nat.mul_zero, Nat.zero_add, List.getD_cons_zero] at k0 k1 k2
  unfold glyphAt luminance
  simp only [h0, h1, h2, k0, k1, k2, Nat.zero_add]

theorem glyphBlock_uniform (x : Nat) (c : Char)
    (hc : glyphAt (frameBytes [x]) 0 = c) :
    glyphBlock (frameBytes (List.replicate 16384 x))
      = (List.range 64).flatMap (fun _ => List.replicate 64 c ++ ['\n']) := by
  unfold glyphBlock
  apply List.flatMap_congr
  intro a ha
  have ha2 : a < 64 := List.mem_range.mp ha
  congr 1
  have e : List.replicate 64 c = (List.range 64).map (fun _ => c) := by
    rw [List.map_const', List.length_range]
  rw [e]
  apply List.map_congr_left
  intro b hb
  have hb2 : b < 64 := List.mem_range.mp hb
  have hi : 2 * a * 128 + 2 * b < (List.replicate 16384 x).length := by
    rw [List.length_replicate]; omega
  rw [glyphAt_frameBytes _ _ hi, List.getD_eq_getElem _ _ hi, List.getElem_replicate]
  exact hc

theorem asciiart_eq_block (img : List Nat) :
    asciiart img = asciiHeader ++ glyphBlock img ++ asciiFooter := by
  unfold asciiart
  rw [show IMAGE_SIZE_Y = 2 * 64 from rfl, show RATIO = 2 from rfl, asciiRows_pairs]
  simp only [glyphBlock, Nat.zero_add]
  congr 3
  funext a
  congr 2
  funext b
  congr 1
  omega

/-- C6, the code at a failing input: for the frame of an all-white capture
(every word `packWord 255 255 255`, luminance 255) `asciiart` prints 64 lines of 64
times the glyph `@`, the first and densest glyph of the palette, and for the frame
of an all-black capture (every word `packWord 0 0 0`, luminance 0) it prints 64
lines of 64 blanks, the last and sparsest glyph: the index
`l - (Y * l / 255)` of line 80 runs through the palette in reverse. -/
theorem white_frame_rendered_dense :
    asciiart (frameBytes whiteFrame)
      = asciiHeader ++ (List.range 64).flatMap (fun _ => List.replicate 64 '@' ++ ['\n'])
          ++ asciiFooter ∧
    asciiart (frameBytes blackFrame)
      = asciiHeader ++ (List.range 64).flatMap (fun _ => List.replicate 64 ' ' ++ ['\n'])
          ++ asciiFooter ∧
    luminance (frameBytes [packWord 255 255 255]) 0 = 255 ∧
    luminance (frameBytes [packWord 0 0 0]) 0 = 0 ∧
    glyphOf 255 = '@' ∧ glyphOf 0 = ' ' ∧
    brightness.getD 0 (Char.ofNat 0) = '@' ∧
    brightness.getD (brightness.length - 1) (Char.ofNat 0) = ' ' := by
  refine ⟨?_, ?_, by decide, by decide, by decide, by decide, by decide, by decide⟩
  · rw [asciiart_eq_block, whiteFrame, glyphBlock_uniform _ '@' (by decide)]
  · rw [asciiart_eq_block, blackFrame, glyphBlock_uniform _ ' ' (by decide)]

end Flowers
